import Mathlib

/-!
Verification of the sentiment-analysis core of the insight-whisperer
repository: the label-to-sentiment mapping policies of the local
classifier, the sequential local batch analyzer with progress callback,
the batched remote analyzer with its fixed batch size, inter-batch delay,
defensive response parsing and HTTP error taxonomy, the single-item remote
analyzer, the lazily initialized singleton model handle, and the
re-entrancy guard of the face-analysis timer loop.

Numeric model: confidence scores are rationals; the decimal literals of
the source (0.4, 0.6) become the exact rationals 2/5 and 3/5.  Machine
strings are Lean strings; String.toLower models JavaScript toLowerCase.
-/

namespace InsightWhisperer

/-- The three-valued sentiment type of the local classifier: the TypeScript
union type "positive" | "negative" | "neutral". -/
inductive Sentiment where
  | positive
  | negative
  | neutral
deriving DecidableEq, Repr

/-- Raw model output consumed by the mapping policy: the TypeScript object
result[0] with fields label (a free-form string) and score (a confidence
value). -/
structure RawClassification where
  label : String
  score : ℚ
deriving DecidableEq, Repr

/-- Per-item result of the local analyzer: the object
componentwise equal to the TypeScript record with fields comment and
sentiment pushed into the results array. -/
structure SentimentResult where
  comment : String
  sentiment : Sentiment
deriving DecidableEq, Repr

/-- Model of the JavaScript toLowerCase call applied to model labels:
lowercase every character of the string (labels in this code base are
ASCII, where Char.toLower agrees with toLowerCase). -/
def strLower (s : String) : String := String.mk (s.data.map Char.toLower)

/-- The 3-class mapping of the local classifier (the revision using the
twitter-roberta ternary model): lowercase the raw label, pass through
"positive" and "negative" exactly, send every other string to neutral.
Translates the chain
if (label === "positive") ... else if (label === "negative") ... else neutral
where label = result[0].label.toLowerCase(). -/
def mapTernarySentiment (r : RawClassification) : Sentiment :=
  let label := strLower r.label
  if label = "positive" then Sentiment.positive
  else if label = "negative" then Sentiment.negative
  else Sentiment.neutral

/-- The binary-model mapping of the local classifier (the revision using
the distilbert sst-2 binary model): when the score lies in the symmetric
uncertainty band [0.4, 0.6] the result is neutral regardless of the
label; otherwise the lowercased label decides, with every label other
than "positive" mapped to negative.  Translates
if (score >= 0.4 && score <= 0.6) neutral else (label === "positive" ? positive : negative). -/
def mapBinarySentiment (r : RawClassification) : Sentiment :=
  if 2/5 ≤ r.score ∧ r.score ≤ 3/5 then Sentiment.neutral
  else if strLower r.label = "positive" then Sentiment.positive
  else Sentiment.negative

example : mapBinarySentiment ⟨"POSITIVE", 95/100⟩ = Sentiment.positive := by
  simp only [mapBinarySentiment]
  rw [if_neg (by norm_num)]
  decide

example : mapBinarySentiment ⟨"POSITIVE", 1/2⟩ = Sentiment.neutral := by
  simp only [mapBinarySentiment]
  rw [if_pos (by norm_num)]

example : mapBinarySentiment ⟨"POSITIVE", 3/10⟩ = Sentiment.positive := by
  simp only [mapBinarySentiment]
  rw [if_neg (by norm_num)]
  decide

example : mapTernarySentiment ⟨"LABEL_2", 9/10⟩ = Sentiment.neutral := by
  decide

/-- One progress notification of the local analyzer: the arguments
(current, total, result) of the onProgress callback. -/
structure ProgressEvent where
  current : ℕ
  total : ℕ
  result : SentimentResult
deriving DecidableEq, Repr

/-- Loop body of analyzeSentimentLocal (3-class revision).  The underlying
model call await analyzer(comment) is the parameter classify; the loop
index i, the input suffix still to process and the callback state are
threaded explicitly.  Per iteration: classify comments[i], map through the
3-class policy, append the pair to the results, and, when a callback is
present, invoke it with (i + 1, total, analysisResult).  The callback is
modelled as a pure state transformer so that arbitrary caller effects are
representable. -/
def localGo {σ : Type} (classify : String → RawClassification)
    (onProgress : Option (ℕ → ℕ → SentimentResult → σ → σ)) (total : ℕ) :
    List String → ℕ → σ → List SentimentResult × σ
  | [], _, s => ([], s)
  | comment :: rest, i, s =>
    let result := classify comment
    let sentiment := mapTernarySentiment result
    let analysisResult : SentimentResult := ⟨comment, sentiment⟩
    let s' := match onProgress with
      | none => s
      | some cb => cb (i + 1) total analysisResult s
    let next := localGo classify onProgress total rest (i + 1) s'
    (analysisResult :: next.1, next.2)

/-- analyzeSentimentLocal (3-class revision): sequentially classify every
comment, accumulating results in input order and reporting progress after
each item. -/
def analyzeSentimentLocal {σ : Type} (classify : String → RawClassification)
    (comments : List String)
    (onProgress : Option (ℕ → ℕ → SentimentResult → σ → σ)) (s : σ) :
    List SentimentResult × σ :=
  localGo classify onProgress comments.length comments 0 s

/-- Instrumentation callback used to observe the analyzer: it records
every invocation of onProgress, in order, in its state. -/
def progressCollector : ℕ → ℕ → SentimentResult → List ProgressEvent → List ProgressEvent :=
  fun current total result acc => acc ++ [⟨current, total, result⟩]

/-- The sequence of progress notifications the loop issues when started at
index i on the given input suffix. -/
def traceFrom (classify : String → RawClassification) (total : ℕ) :
    List String → ℕ → List ProgressEvent
  | [], _ => []
  | comment :: rest, i =>
    ⟨i + 1, total, ⟨comment, mapTernarySentiment (classify comment)⟩⟩ ::
      traceFrom classify total rest (i + 1)

theorem localGo_fst {σ : Type} (classify : String → RawClassification)
    (onProgress : Option (ℕ → ℕ → SentimentResult → σ → σ)) (total : ℕ) :
    ∀ (l : List String) (i : ℕ) (s : σ),
      (localGo classify onProgress total l i s).1 =
        l.map (fun c => ⟨c, mapTernarySentiment (classify c)⟩) := by
  intro l
  induction l with
  | nil => intro i s; rfl
  | cons c rest ih =>
    intro i s
    simp only [localGo, List.map_cons, List.cons.injEq, true_and]
    exact ih (i + 1) _

theorem localGo_collector_snd (classify : String → RawClassification) (total : ℕ) :
    ∀ (l : List String) (i : ℕ) (acc : List ProgressEvent),
      (localGo classify (some progressCollector) total l i acc).2 =
        acc ++ traceFrom classify total l i := by
  intro l
  induction l with
  | nil => intro i acc; simp [localGo, traceFrom]
  | cons c rest ih =>
    intro i acc
    simp only [localGo, traceFrom]
    rw [ih (i + 1)]
    simp [progressCollector]

theorem traceFrom_length (classify : String → RawClassification) (total : ℕ) :
    ∀ (l : List String) (i : ℕ), (traceFrom classify total l i).length = l.length := by
  intro l
  induction l with
  | nil => intro i; rfl
  | cons c rest ih => intro i; simp [traceFrom, ih]

theorem traceFrom_get? (classify : String → RawClassification) (total : ℕ) :
    ∀ (l : List String) (i k : ℕ) (c : String), l.get? k = some c →
      (traceFrom classify total l i).get? k =
        some ⟨i + k + 1, total, ⟨c, mapTernarySentiment (classify c)⟩⟩ := by
  intro l
  induction l with
  | nil => intro i k c h; simp at h
  | cons a rest ih =>
    intro i k c h
    cases k with
    | zero =>
      simp only [List.get?] at h
      cases h
      simp [traceFrom]
    | succ k' =>
      simp only [List.get?] at h
      have := ih (i + 1) k' c h
      simp only [traceFrom, List.get?]
      rw [this]
      congr 2
      omega

/-- State of the module-level singleton analyzer handle of the local
classifier file: the variable let sentimentAnalyzer = null together with a
count of how many times the model has been loaded.  Handles are drawn
from ℕ; loadModel is the model of the pipeline(...) call, allowed to
return a different handle on every invocation. -/
structure AnalyzerState where
  handle : Option ℕ
  loads : ℕ
deriving DecidableEq, Repr

/-- initializeSentimentAnalyzer: if the module-level handle is unset, load
the model, store the handle, and return it; otherwise return the stored
handle unchanged.  Translates
if (!sentimentAnalyzer) sentimentAnalyzer = await pipeline(...); return sentimentAnalyzer. -/
def initializeSentimentAnalyzer (loadModel : ℕ → ℕ) (s : AnalyzerState) :
    ℕ × AnalyzerState :=
  match s.handle with
  | some h => (h, s)
  | none => (loadModel s.loads, ⟨some (loadModel s.loads), s.loads + 1⟩)

/-- The stateful entry point of the local analyzer: it first calls
initializeSentimentAnalyzer (const analyzer = await initializeSentimentAnalyzer())
and then classifies every comment through the returned handle, where
classifyWith h is the classifier behaviour of handle h. -/
def analyzeSentimentLocalStateful {σ : Type} (loadModel : ℕ → ℕ)
    (classifyWith : ℕ → String → RawClassification) (s : AnalyzerState)
    (comments : List String)
    (onProgress : Option (ℕ → ℕ → SentimentResult → σ → σ)) (st : σ) :
    (List SentimentResult × σ) × AnalyzerState :=
  let init := initializeSentimentAnalyzer loadModel s
  (analyzeSentimentLocal (classifyWith init.1) comments onProgress st, init.2)

/-- Claim C2: on N input comments the local analyzer invokes the progress
callback exactly N times with current = i + 1 at the i-th invocation
(hence strictly increasing from 1 to N) and total always N, and returns a
result list of length N whose i-th entry pairs the i-th input comment
with its mapped sentiment. -/
theorem claim_C2 (classify : String → RawClassification) (comments : List String) :
    (analyzeSentimentLocal classify comments (some progressCollector) []).1.length =
      comments.length ∧
    (analyzeSentimentLocal classify comments (some progressCollector) []).2.length =
      comments.length ∧
    ∀ (i : ℕ) (c : String), comments.get? i = some c →
      (analyzeSentimentLocal classify comments (some progressCollector) []).1.get? i =
        some ⟨c, mapTernarySentiment (classify c)⟩ ∧
      (analyzeSentimentLocal classify comments (some progressCollector) []).2.get? i =
        some ⟨i + 1, comments.length, ⟨c, mapTernarySentiment (classify c)⟩⟩ := by
  refine ⟨?_, ?_, ?_⟩
  · rw [analyzeSentimentLocal, localGo_fst]
    simp
  · rw [analyzeSentimentLocal, localGo_collector_snd]
    simp [traceFrom_length]
  · intro i c h
    constructor
    · rw [analyzeSentimentLocal, localGo_fst, List.get?_map, h]
      rfl
    · rw [analyzeSentimentLocal, localGo_collector_snd]
      simp only [List.nil_append]
      have := traceFrom_get? classify comments.length comments 0 i c h
      rw [this]
      congr 2
      omega

theorem claim_C2_witness :
    (analyzeSentimentLocal (fun _ => ⟨"POSITIVE", 9/10⟩) ["good", "bad"]
        (some progressCollector) []).2.get? 1 =
      some ⟨2, 2, ⟨"bad", Sentiment.positive⟩⟩ := by
  have h := (claim_C2 (fun _ => ⟨"POSITIVE", 9/10⟩) ["good", "bad"]).2.2 1 "bad" rfl
  rw [h.2]
  decide

/-- Claim C9: initializeSentimentAnalyzer is idempotent.  From an unset
state the call loads the model once and stores the returned handle; from
then on every call returns the same handle and leaves the state (and the
load count) unchanged; and the stateful local analyzer classifies through
exactly the stored handle. -/
theorem claim_C9 (loadModel : ℕ → ℕ) (s : AnalyzerState) :
    (s.handle = none →
      (initializeSentimentAnalyzer loadModel s).2.handle =
        some (initializeSentimentAnalyzer loadModel s).1 ∧
      (initializeSentimentAnalyzer loadModel s).2.loads = s.loads + 1) ∧
    (∀ (h : ℕ) (s' : AnalyzerState),
      initializeSentimentAnalyzer loadModel s = (h, s') →
      initializeSentimentAnalyzer loadModel s' = (h, s')) ∧
    (∀ (σ : Type) (classifyWith : ℕ → String → RawClassification)
      (comments : List String)
      (cb : Option (ℕ → ℕ → SentimentResult → σ → σ)) (st : σ) (h : ℕ),
      s.handle = some h →
        analyzeSentimentLocalStateful loadModel classifyWith s comments cb st =
          (analyzeSentimentLocal (classifyWith h) comments cb st, s)) := by
  refine ⟨?_, ?_, ?_⟩
  · intro hnone
    cases s with
    | mk handle loads =>
      cases hnone
      simp [initializeSentimentAnalyzer]
  · intro h s' heq
    cases s with
    | mk handle loads =>
      cases handle with
      | none =>
        simp only [initializeSentimentAnalyzer, Prod.mk.injEq] at heq
        rcases heq with ⟨h1, h2⟩
        rw [← h2, ← h1]
        simp [initializeSentimentAnalyzer]
      | some h0 =>
        simp only [initializeSentimentAnalyzer, Prod.mk.injEq] at heq
        rcases heq with ⟨h1, h2⟩
        rw [← h2, ← h1]
        simp [initializeSentimentAnalyzer]
  · intro σ classifyWith comments cb st h hsome
    cases s with
    | mk handle loads =>
      cases hsome
      simp [analyzeSentimentLocalStateful, initializeSentimentAnalyzer]

theorem claim_C9_witness :
    ((initializeSentimentAnalyzer (fun n => n + 7) ⟨none, 0⟩).2.handle =
        some (initializeSentimentAnalyzer (fun n => n + 7) ⟨none, 0⟩).1 ∧
      (initializeSentimentAnalyzer (fun n => n + 7) ⟨none, 0⟩).2.loads = 0 + 1) ∧
    initializeSentimentAnalyzer (fun n => n + 7) ⟨some 7, 1⟩ = (7, ⟨some 7, 1⟩) ∧
    analyzeSentimentLocalStateful (fun n => n + 7) (fun _ _ => ⟨"x", 0⟩)
        ⟨some 7, 1⟩ [] (σ := PUnit) none PUnit.unit =
      (analyzeSentimentLocal (σ := PUnit)
          (fun _ => (⟨"x", 0⟩ : RawClassification)) [] none PUnit.unit,
        ⟨some 7, 1⟩) := by
  refine ⟨(claim_C9 (fun n => n + 7) ⟨none, 0⟩).1 rfl, ?_, ?_⟩
  · exact (claim_C9 (fun n => n + 7) ⟨some 7, 1⟩).2.1 7 ⟨some 7, 1⟩ rfl
  · exact (claim_C9 (fun n => n + 7) ⟨some 7, 1⟩).2.2 PUnit (fun _ _ => ⟨"x", 0⟩)
      [] none PUnit.unit 7 rfl

/-- Claim C1, as stated, is false for the binary-model mapping in the
code: no single confidence threshold t reproduces the implemented policy.
The code uses the symmetric band [0.4, 0.6]: a classification with label
"positive" and score 0.3 lies below every candidate threshold (in
particular below both observed cutoffs 0.4 and 0.6) yet is mapped to
positive, while a classification with score 0.5 at or above any t ≤ 0.3
is mapped to neutral despite its positive label. -/
theorem claim_C1_counterexample :
    ¬ ∃ t : ℚ, ∀ (label : String) (score : ℚ),
      (score < t → mapBinarySentiment ⟨label, score⟩ = Sentiment.neutral) ∧
      (t ≤ score → strLower label = "positive" →
        mapBinarySentiment ⟨label, score⟩ = Sentiment.positive) ∧
      (t ≤ score → strLower label = "negative" →
        mapBinarySentiment ⟨label, score⟩ = Sentiment.negative) := by
  rintro ⟨t, ht⟩
  by_cases hc : (3 : ℚ)/10 < t
  · have h := (ht "positive" (3/10)).1 hc
    simp only [mapBinarySentiment] at h
    rw [if_neg (by norm_num)] at h
    have hs : strLower "positive" = "positive" := by decide
    rw [if_pos hs] at h
    exact Sentiment.noConfusion h
  · push_neg at hc
    have hle : t ≤ (1 : ℚ)/2 := le_trans hc (by norm_num)
    have h := (ht "positive" (1/2)).2.1 hle (by decide)
    simp only [mapBinarySentiment] at h
    rw [if_pos (by norm_num)] at h
    exact Sentiment.noConfusion h

/-- Claim C1 amended: for the binary-model local classifier, a score
inside the configured uncertainty band [0.4, 0.6] maps to neutral
regardless of the raw label, and a score outside the band with label in
both positive and negative cases maps to the label lowercased. -/
theorem claim_C1_amended (label : String) (score : ℚ) :
    (2/5 ≤ score ∧ score ≤ 3/5 →
      mapBinarySentiment ⟨label, score⟩ = Sentiment.neutral) ∧
    (¬(2/5 ≤ score ∧ score ≤ 3/5) →
      (strLower label = "positive" →
        mapBinarySentiment ⟨label, score⟩ = Sentiment.positive) ∧
      (strLower label = "negative" →
        mapBinarySentiment ⟨label, score⟩ = Sentiment.negative)) := by
  constructor
  · intro hband
    simp only [mapBinarySentiment]
    rw [if_pos hband]
  · intro hout
    constructor
    · intro hl
      simp only [mapBinarySentiment]
      rw [if_neg hout, if_pos hl]
    · intro hl
      simp only [mapBinarySentiment]
      rw [if_neg hout, if_neg (show ¬strLower label = "positive" by rw [hl]; decide)]

theorem claim_C1_witness :
    mapBinarySentiment ⟨"POSITIVE", 1/2⟩ = Sentiment.neutral ∧
    mapBinarySentiment ⟨"NEGATIVE", 9/10⟩ = Sentiment.negative := by
  constructor
  · exact (claim_C1_amended "POSITIVE" (1/2)).1 (by norm_num)
  · exact ((claim_C1_amended "NEGATIVE" (9/10)).2 (by norm_num)).2 (by decide)

/-- Claim C7: the 3-class mapping returns the lowercased label whenever
that lowercasing is exactly positive, negative or neutral, and returns
neutral for every other label string. -/
theorem claim_C7 (label : String) (score : ℚ) :
    (strLower label = "positive" →
      mapTernarySentiment ⟨label, score⟩ = Sentiment.positive) ∧
    (strLower label = "negative" →
      mapTernarySentiment ⟨label, score⟩ = Sentiment.negative) ∧
    (strLower label = "neutral" →
      mapTernarySentiment ⟨label, score⟩ = Sentiment.neutral) ∧
    (strLower label ≠ "positive" → strLower label ≠ "negative" →
      strLower label ≠ "neutral" →
      mapTernarySentiment ⟨label, score⟩ = Sentiment.neutral) := by
  refine ⟨?_, ?_, ?_, ?_⟩
  · intro hl
    simp only [mapTernarySentiment]
    rw [if_pos hl]
  · intro hl
    simp only [mapTernarySentiment]
    rw [if_neg (show ¬strLower label = "positive" by rw [hl]; decide), if_pos hl]
  · intro hl
    simp only [mapTernarySentiment]
    rw [if_neg (show ¬strLower label = "positive" by rw [hl]; decide),
      if_neg (show ¬strLower label = "negative" by rw [hl]; decide)]
  · intro h1 h2 _
    simp only [mapTernarySentiment]
    rw [if_neg h1, if_neg h2]

theorem claim_C7_witness :
    mapTernarySentiment ⟨"Positive", 1/2⟩ = Sentiment.positive ∧
    mapTernarySentiment ⟨"LABEL_0", 1/2⟩ = Sentiment.neutral := by
  constructor
  · exact (claim_C7 "Positive" (1/2)).1 (by decide)
  · exact (claim_C7 "LABEL_0" (1/2)).2.2.2 (by decide) (by decide) (by decide)

/-- Outcome of one upstream chat-completion request in the batched remote
analyzer, at the granularity the handler distinguishes: either a non-ok
HTTP status, or an ok response whose text either fails JSON-array
extraction and parsing entirely (none) or parses to a positional list of
entries, each entry being the optional string value of its sentiment
field (none models a missing entry or a missing field). -/
inductive UpstreamResult where
  | httpError (status : ℕ)
  | ok (parse : Option (List (Option String)))

/-- Whether the upstream response had an ok HTTP status (response.ok). -/
def UpstreamResult.isOk : UpstreamResult → Bool
  | UpstreamResult.httpError _ => false
  | UpstreamResult.ok _ => true

/-- The three error classes thrown by the batched remote analyzer. -/
inductive AnalyzeError where
  | rateLimited
  | paymentRequired
  | apiError (status : ℕ)
deriving DecidableEq, Repr

/-- The user-facing message attached to each thrown error, verbatim from
the handler. -/
def AnalyzeError.message : AnalyzeError → String
  | AnalyzeError.rateLimited =>
    "Rate limit exceeded. Please try again in a moment or upload fewer comments."
  | AnalyzeError.paymentRequired =>
    "AI usage limit reached. Please add credits to continue."
  | AnalyzeError.apiError status => "AI API error: " ++ toString status

/-- The error branch taken on a non-ok status: 429 and 402 map to their
dedicated errors, every other status to the generic upstream failure. -/
def statusToError (status : ℕ) : AnalyzeError :=
  if status = 429 then AnalyzeError.rateLimited
  else if status = 402 then AnalyzeError.paymentRequired
  else AnalyzeError.apiError status

/-- Per-item result of the remote analyzers; unlike the local path the
sentiment field is a plain string in the source. -/
structure RemoteResult where
  comment : String
  sentiment : String
deriving DecidableEq, Repr

/-- The valid-label list of the handler:
['positive', 'negative', 'neutral']. -/
def validSentiments : List String := ["positive", "negative", "neutral"]

/-- Model of the JavaScript trim call: drop whitespace from both ends. -/
def strTrim (s : String) : String :=
  String.mk (((s.data.dropWhile Char.isWhitespace).reverse.dropWhile
    Char.isWhitespace).reverse)

/-- Per-position mapping of a parsed entry in the batched handler.
Translates
const sentiment = sentiments[idx]?.sentiment?.toLowerCase() || 'neutral'
followed by the membership check
['positive','negative','neutral'].includes(sentiment) ? sentiment : 'neutral'.
The || also replaces an empty lowercased string, which is falsy. -/
def mapRemoteEntry (entry : Option String) : String :=
  let sentiment :=
    match entry with
    | none => "neutral"
    | some v => if strLower v = "" then "neutral" else strLower v
  if validSentiments.contains sentiment then sentiment else "neutral"

/-- The sentiments array after the defensive parse: on total parse
failure every batch item gets an entry with sentiment "neutral"
(sentiments = batch.map(() => ({sentiment: "neutral"}))); otherwise the
parsed entries are used as they are. -/
def batchSentiments (parse : Option (List (Option String)))
    (batch : List String) : List (Option String) :=
  match parse with
  | none => batch.map (fun _ => some "neutral")
  | some entries => entries

/-- The batch.forEach((comment, idx) => results.push(...)) loop: pair
each batch comment with the mapped entry at its batch position. -/
def batchResultsFrom : List String → List (Option String) → ℕ → List RemoteResult
  | [], _, _ => []
  | comment :: cs, sentiments, idx =>
    ⟨comment, mapRemoteEntry ((sentiments.get? idx).join)⟩ ::
      batchResultsFrom cs sentiments (idx + 1)

/-- Externally visible actions of the batch loop: one upstream request
per batch and the fixed inter-batch sleep
await new Promise(resolve => setTimeout(resolve, 1000)). -/
inductive RemoteEvent where
  | request (batch : List String)
  | delay (ms : ℕ)
deriving DecidableEq, Repr

/-- The fixed batch size of the remote analyzer (const batchSize = 10). -/
def batchSize : ℕ := 10

/-- The fixed inter-batch delay in milliseconds (setTimeout(resolve, 1000)). -/
def interBatchDelayMs : ℕ := 1000

/-- The batch loop of the remote analyzer
(for (let i = 0; i < comments.length; i += batchSize)).  Each iteration
takes the next batch of at most batchSize comments, issues one upstream
request (modelled by the upstream oracle, indexed by batch number), and
either throws on a non-ok status, or maps the parsed entries onto the
batch and continues; the fixed delay is emitted only when further
comments remain (if (i + batchSize < comments.length)).  Returns the
accumulated results (or the thrown error) together with the ordered
request/delay event trace. -/
def processBatches (upstream : ℕ → UpstreamResult) :
    List String → ℕ → Except AnalyzeError (List RemoteResult) × List RemoteEvent
  | [], _ => (Except.ok [], [])
  | comment :: more, batchIdx =>
    let batch := (comment :: more).take batchSize
    let rest := (comment :: more).drop batchSize
    match upstream batchIdx with
    | UpstreamResult.httpError status =>
      (Except.error (statusToError status), [RemoteEvent.request batch])
    | UpstreamResult.ok parse =>
      let sentiments := batchSentiments parse batch
      let bres := batchResultsFrom batch sentiments 0
      let next := processBatches upstream rest (batchIdx + 1)
      let events := RemoteEvent.request batch ::
        (if rest.isEmpty then [] else RemoteEvent.delay interBatchDelayMs :: next.2)
      match next.1 with
      | Except.error e => (Except.error e, events)
      | Except.ok rs => (Except.ok (bres ++ rs), events)
termination_by l _ => l.length
decreasing_by
  simp only [List.length_drop, List.length_cons, batchSize]
  omega

/-- Reference partition of the input into consecutive batches of at most
batchSize comments, used to state what the loop requests. -/
def chunkList : List String → List (List String)
  | [] => []
  | comment :: more =>
    (comment :: more).take batchSize :: chunkList ((comment :: more).drop batchSize)
termination_by l => l.length
decreasing_by
  simp only [List.length_drop, List.length_cons, batchSize]
  omega

/-- Number of batches for n comments: ceil(n / batchSize). -/
def numBatches (n : ℕ) : ℕ := (n + batchSize - 1) / batchSize

/-- The sentiment the batched handler assigns to the comment at offset j
of a batch whose upstream outcome is given: neutral for the whole batch
on total parse failure, otherwise the entry at j mapped through
mapRemoteEntry. -/
def expectedRemoteSentiment : UpstreamResult → ℕ → String
  | UpstreamResult.httpError _, _ => "neutral"
  | UpstreamResult.ok none, _ => "neutral"
  | UpstreamResult.ok (some entries), j => mapRemoteEntry ((entries.get? j).join)

/-- The request events of a trace, with their batches. -/
def requestsOf (events : List RemoteEvent) : List (List String) :=
  events.filterMap (fun e =>
    match e with
    | RemoteEvent.request b => some b
    | RemoteEvent.delay _ => none)

/-- The single-item remote analyzer (the earlier revision of the edge
function): lowercase and trim the one-word model reply, then classify by
substring containment, preferring positive over negative, defaulting to
neutral.  strIncludes s pat models s.includes(pat). -/
def listIncludes : List Char → List Char → Bool
  | [], pat => pat.isEmpty
  | c :: rest, pat => pat.isPrefixOf (c :: rest) || listIncludes rest pat

def strIncludes (s pat : String) : Bool := listIncludes s.data pat.data

/-- Translates
sentiment.includes('positive') ? 'positive' : sentiment.includes('negative') ? 'negative' : 'neutral'
with sentiment = content.toLowerCase().trim(). -/
def singleRemoteSentiment (content : String) : String :=
  let sentiment := strTrim (strLower content)
  if strIncludes sentiment "positive" then "positive"
  else if strIncludes sentiment "negative" then "negative"
  else "neutral"

theorem batchResultsFrom_length :
    ∀ (cs : List String) (sentiments : List (Option String)) (idx : ℕ),
      (batchResultsFrom cs sentiments idx).length = cs.length := by
  intro cs
  induction cs with
  | nil => intro sentiments idx; rfl
  | cons c rest ih => intro sentiments idx; simp [batchResultsFrom, ih]

theorem batchResultsFrom_get? :
    ∀ (cs : List String) (sentiments : List (Option String)) (idx p : ℕ) (c : String),
      cs.get? p = some c →
      (batchResultsFrom cs sentiments idx).get? p =
        some ⟨c, mapRemoteEntry ((sentiments.get? (idx + p)).join)⟩ := by
  intro cs
  induction cs with
  | nil => intro sentiments idx p c h; simp at h
  | cons a rest ih =>
    intro sentiments idx p c h
    cases p with
    | zero =>
      simp only [List.get?] at h
      cases h
      simp [batchResultsFrom]
    | succ p' =>
      simp only [List.get?] at h
      have harith : idx + 1 + p' = idx + (p' + 1) := by omega
      have := ih sentiments (idx + 1) p' c h
      simp only [batchResultsFrom, List.get?]
      rw [this, harith]

theorem batchResultsFrom_sentiment_mem :
    ∀ (cs : List String) (sentiments : List (Option String)) (idx : ℕ)
      (r : RemoteResult), r ∈ batchResultsFrom cs sentiments idx →
      ∃ entry, r.sentiment = mapRemoteEntry entry := by
  intro cs
  induction cs with
  | nil => intro sentiments idx r h; simp [batchResultsFrom] at h
  | cons a rest ih =>
    intro sentiments idx r h
    simp only [batchResultsFrom, List.mem_cons] at h
    cases h with
    | inl h => exact ⟨(sentiments.get? idx).join, by rw [h]⟩
    | inr h => exact ih sentiments (idx + 1) r h

example : mapRemoteEntry (some "neutral") = "neutral" := by decide

theorem mapRemoteEntry_mem (entry : Option String) :
    mapRemoteEntry entry ∈ validSentiments := by
  cases entry with
  | none => decide
  | some v =>
    simp only [mapRemoteEntry]
    by_cases h0 : strLower v = ""
    · rw [if_pos h0]
      decide
    · rw [if_neg h0]
      by_cases hc : validSentiments.contains (strLower v) = true
      · rw [if_pos hc]
        exact List.mem_of_elem_eq_true hc
      · rw [if_neg hc]
        decide

theorem chunkList_eq_nil_iff (l : List String) : chunkList l = [] ↔ l = [] := by
  cases l with
  | nil => simp [chunkList]
  | cons c more => rw [chunkList]; simp

theorem chunkList_length :
    ∀ (n : ℕ) (l : List String), l.length ≤ n →
      (chunkList l).length = numBatches l.length := by
  intro n
  induction n with
  | zero =>
    intro l hl
    have : l = [] := List.length_eq_zero.mp (Nat.le_zero.mp hl)
    subst this
    simp [chunkList, numBatches, batchSize]
  | succ n ih =>
    intro l hl
    cases l with
    | nil => simp [chunkList, numBatches, batchSize]
    | cons c more =>
      have hl' : more.length + 1 ≤ n + 1 := by simpa using hl
      rw [chunkList]
      have hrest := ih ((c :: more).drop batchSize)
        (by simp only [List.length_drop, List.length_cons, batchSize]; omega)
      simp only [List.length_cons, List.length_drop, batchSize, numBatches] at hrest ⊢
      rw [hrest]
      omega

theorem chunkList_join :
    ∀ (n : ℕ) (l : List String), l.length ≤ n → (chunkList l).join = l := by
  intro n
  induction n with
  | zero =>
    intro l hl
    have : l = [] := List.length_eq_zero.mp (Nat.le_zero.mp hl)
    subst this
    simp [chunkList]
  | succ n ih =>
    intro l hl
    cases l with
    | nil => simp [chunkList]
    | cons c more =>
      have hl' : more.length + 1 ≤ n + 1 := by simpa using hl
      rw [chunkList]
      have hrest := ih ((c :: more).drop batchSize)
        (by simp only [List.length_drop, List.length_cons, batchSize]; omega)
      simp only [List.join_cons, hrest, List.take_append_drop]

theorem chunkList_mem_size :
    ∀ (n : ℕ) (l : List String), l.length ≤ n →
      ∀ b ∈ chunkList l, b ≠ [] ∧ b.length ≤ batchSize := by
  intro n
  induction n with
  | zero =>
    intro l hl
    have : l = [] := List.length_eq_zero.mp (Nat.le_zero.mp hl)
    subst this
    simp [chunkList]
  | succ n ih =>
    intro l hl
    cases l with
    | nil => simp [chunkList]
    | cons c more =>
      have hl' : more.length + 1 ≤ n + 1 := by simpa using hl
      rw [chunkList]
      intro b hb
      rcases List.mem_cons.mp hb with hhead | htail
      · subst hhead
        constructor
        · simp [batchSize]
        · simpa using List.length_take_le batchSize (c :: more)
      · exact ih ((c :: more).drop batchSize)
          (by simp only [List.length_drop, List.length_cons, batchSize]; omega) b htail

theorem chunkList_dropLast_size :
    ∀ (n : ℕ) (l : List String), l.length ≤ n →
      ∀ b ∈ (chunkList l).dropLast, b.length = batchSize := by
  intro n
  induction n with
  | zero =>
    intro l hl
    have : l = [] := List.length_eq_zero.mp (Nat.le_zero.mp hl)
    subst this
    simp [chunkList]
  | succ n ih =>
    intro l hl
    cases l with
    | nil => simp [chunkList]
    | cons c more =>
      have hl' : more.length + 1 ≤ n + 1 := by simpa using hl
      rw [chunkList]
      by_cases hrest : (c :: more).drop batchSize = []
      · rw [hrest]
        simp [chunkList]
      · have hcons : chunkList ((c :: more).drop batchSize) ≠ [] := by
          intro hnil
          exact hrest ((chunkList_eq_nil_iff _).mp hnil)
        intro b hb
        rw [List.dropLast_cons_of_ne_nil hcons] at hb
        rcases List.mem_cons.mp hb with hhead | htail
        · subst hhead
          have hlong : batchSize ≤ (c :: more).length := by
            by_contra hshort
            push_neg at hshort
            exact hrest (List.drop_eq_nil_of_le (le_of_lt hshort))
          simp only [List.length_take, List.length_cons]
          simp only [List.length_cons] at hlong
          omega
        · exact ih ((c :: more).drop batchSize)
            (by simp only [List.length_drop, List.length_cons, batchSize]; omega) b htail

theorem processBatches_nil (upstream : ℕ → UpstreamResult) (batchIdx : ℕ) :
    processBatches upstream [] batchIdx = (Except.ok [], []) := by
  simp [processBatches]

theorem processBatches_ok (upstream : ℕ → UpstreamResult)
    (hok : ∀ k, (upstream k).isOk = true) :
    ∀ (n : ℕ) (l : List String), l.length ≤ n → ∀ batchIdx : ℕ,
      ∃ res,
        processBatches upstream l batchIdx =
          (Except.ok res,
            List.intersperse (RemoteEvent.delay interBatchDelayMs)
              ((chunkList l).map RemoteEvent.request)) ∧
        res.length = l.length ∧
        ∀ (p : ℕ) (c : String), l.get? p = some c →
          res.get? p = some ⟨c,
            expectedRemoteSentiment (upstream (batchIdx + p / batchSize))
              (p % batchSize)⟩ := by
  intro n
  induction n with
  | zero =>
    intro l hl batchIdx
    have hnil : l = [] := List.length_eq_zero.mp (Nat.le_zero.mp hl)
    subst hnil
    refine ⟨[], ?_, rfl, ?_⟩
    · simp [processBatches, chunkList]
    · intro p c h
      simp at h
  | succ n ih =>
    intro l hl batchIdx
    cases l with
    | nil =>
      refine ⟨[], ?_, rfl, ?_⟩
      · simp [processBatches, chunkList]
      · intro p c h
        simp at h
    | cons comment more =>
      cases hup : upstream batchIdx with
      | httpError status =>
        have hko := hok batchIdx
        rw [hup] at hko
        simp [UpstreamResult.isOk] at hko
      | ok parse =>
        obtain ⟨res', hres', hlen', hget'⟩ :=
          ih ((comment :: more).drop batchSize)
            (by
              simp only [List.length_drop, List.length_cons, batchSize]
              simp only [List.length_cons] at hl
              omega)
            (batchIdx + 1)
        refine ⟨batchResultsFrom ((comment :: more).take batchSize)
            (batchSentiments parse ((comment :: more).take batchSize)) 0 ++ res',
            ?_, ?_, ?_⟩
        · rw [processBatches]
          simp only [hup, hres']
          rw [chunkList]
          rw [Prod.mk.injEq]
          refine ⟨rfl, ?_⟩
          cases hdrop : (comment :: more).drop batchSize with
          | nil =>
            simp [chunkList]
          | cons r rs =>
            have hchne : chunkList (r :: rs) ≠ [] := by
              intro hh
              exact (List.cons_ne_nil r rs) ((chunkList_eq_nil_iff _).mp hh)
            obtain ⟨b0, bs, hbs⟩ := List.exists_cons_of_ne_nil hchne
            rw [hbs]
            simp [List.intersperse_cons_cons]
        · rw [List.length_append, batchResultsFrom_length, hlen']
          simp only [List.length_take, List.length_drop, List.length_cons, batchSize]
          omega
        · intro p c hp
          have hpL : p < (comment :: more).length := by
            by_contra hge
            push_neg at hge
            rw [List.get?_eq_none.mpr hge] at hp
            exact Option.noConfusion hp
          by_cases hsmall : p < ((comment :: more).take batchSize).length
          · have hp10 : p < batchSize := by
              have := List.length_take_le batchSize (comment :: more)
              omega
            rw [List.get?_append (by rwa [batchResultsFrom_length])]
            have hbp : ((comment :: more).take batchSize).get? p = some c := by
              rw [List.get?_take hp10]
              exact hp
            rw [batchResultsFrom_get? _ _ 0 p c hbp]
            have hdiv : p / batchSize = 0 := Nat.div_eq_of_lt hp10
            have hmod : p % batchSize = p := Nat.mod_eq_of_lt hp10
            rw [hdiv, hmod, Nat.add_zero, hup]
            cases parse with
            | none =>
              have hneut : mapRemoteEntry (some "neutral") = "neutral" := by decide
              simp only [batchSentiments, expectedRemoteSentiment, Nat.zero_add]
              rw [List.get?_map, hbp]
              simp [Option.join, hneut]
            | some entries =>
              simp only [batchSentiments, expectedRemoteSentiment, Nat.zero_add]
          · push_neg at hsmall
            rw [List.get?_append_right (by rwa [batchResultsFrom_length])]
            rw [batchResultsFrom_length]
            have hbatchlen : ((comment :: more).take batchSize).length =
                min batchSize (comment :: more).length := List.length_take _ _
            have hL10 : batchSize < (comment :: more).length := by omega
            have hbl : ((comment :: more).take batchSize).length = batchSize := by omega
            rw [hbl]
            have hrest_get : ((comment :: more).drop batchSize).get? (p - batchSize) =
                some c := by
              rw [List.get?_drop]
              have harith : batchSize + (p - batchSize) = p := by
                rw [hbl] at hsmall
                omega
              rw [harith]
              exact hp
            rw [hget' (p - batchSize) c hrest_get]
            rw [hbl] at hsmall
            have h1 : batchIdx + 1 + (p - batchSize) / batchSize =
                batchIdx + p / batchSize := by
              simp only [batchSize] at hsmall ⊢
              omega
            have h2 : (p - batchSize) % batchSize = p % batchSize := by
              simp only [batchSize] at hsmall ⊢
              omega
            rw [h1, h2]

theorem requestsOf_intersperse (d : ℕ) :
    ∀ batches : List (List String),
      requestsOf (List.intersperse (RemoteEvent.delay d)
        (batches.map RemoteEvent.request)) = batches := by
  intro batches
  induction batches with
  | nil => rfl
  | cons b rest ih =>
    cases rest with
    | nil => simp [requestsOf]
    | cons b2 rest2 =>
      simp only [List.map_cons, List.intersperse_cons_cons] at ih ⊢
      simp only [requestsOf, List.filterMap_cons] at ih ⊢
      rw [ih]

theorem processBatches_error (upstream : ℕ → UpstreamResult) :
    ∀ (n : ℕ) (l : List String), l.length ≤ n →
      ∀ (batchIdx j status : ℕ),
        (∀ k, k < j → (upstream (batchIdx + k)).isOk = true) →
        upstream (batchIdx + j) = UpstreamResult.httpError status →
        j < numBatches l.length →
        (processBatches upstream l batchIdx).1 =
          Except.error (statusToError status) ∧
        (requestsOf (processBatches upstream l batchIdx).2).length = j + 1 := by
  intro n
  induction n with
  | zero =>
    intro l hl batchIdx j status hpre hfail hj
    have hnil : l = [] := List.length_eq_zero.mp (Nat.le_zero.mp hl)
    subst hnil
    simp [numBatches, batchSize] at hj
  | succ n ih =>
    intro l hl batchIdx j status hpre hfail hj
    cases l with
    | nil => simp [numBatches, batchSize] at hj
    | cons comment more =>
      cases j with
      | zero =>
        rw [Nat.add_zero] at hfail
        rw [processBatches]
        simp only [hfail]
        exact ⟨by trivial, by simp [requestsOf]⟩
      | succ j' =>
        have hok0 := hpre 0 (Nat.succ_pos j')
        rw [Nat.add_zero] at hok0
        cases hup : upstream batchIdx with
        | httpError s =>
          rw [hup] at hok0
          simp [UpstreamResult.isOk] at hok0
        | ok parse =>
          have hrestlen : ((comment :: more).drop batchSize).length ≤ n := by
            simp only [List.length_drop, List.length_cons, batchSize]
            simp only [List.length_cons] at hl
            omega
          have hpre' : ∀ k, k < j' → (upstream (batchIdx + 1 + k)).isOk = true := by
            intro k hk
            have hk1 := hpre (k + 1) (by omega)
            rwa [show batchIdx + (k + 1) = batchIdx + 1 + k by omega] at hk1
          have hfail' : upstream (batchIdx + 1 + j') =
              UpstreamResult.httpError status := by
            rwa [show batchIdx + 1 + j' = batchIdx + (j' + 1) by omega]
          have hj' : j' < numBatches ((comment :: more).drop batchSize).length := by
            simp only [numBatches, batchSize, List.length_drop, List.length_cons] at hj ⊢
            omega
          have hLbig : batchSize < (comment :: more).length := by
            simp only [numBatches, batchSize, List.length_cons] at hj
            simp only [List.length_cons, batchSize]
            omega
          obtain ⟨herr, hreq⟩ := ih ((comment :: more).drop batchSize) hrestlen
            (batchIdx + 1) j' status hpre' hfail' hj'
          rw [processBatches]
          simp only [hup, herr]
          constructor
          · trivial
          · cases hdrop : (comment :: more).drop batchSize with
            | nil =>
              exfalso
              have hlen0 := congrArg List.length hdrop
              simp only [List.length_drop, List.length_cons, List.length_nil,
                batchSize] at hlen0
              simp only [List.length_cons, batchSize] at hLbig
              omega
            | cons r rs =>
              rw [hdrop] at hreq
              simp only [List.isEmpty_cons, Bool.false_eq_true, if_false]
              simp only [requestsOf, List.filterMap_cons] at hreq ⊢
              simp only [List.length_cons]
              omega

theorem processBatches_results_valid (upstream : ℕ → UpstreamResult) :
    ∀ (n : ℕ) (l : List String), l.length ≤ n →
      ∀ (batchIdx : ℕ) (res : List RemoteResult) (events : List RemoteEvent),
        processBatches upstream l batchIdx = (Except.ok res, events) →
        ∀ r ∈ res, r.sentiment ∈ validSentiments := by
  intro n
  induction n with
  | zero =>
    intro l hl batchIdx res events heq
    have hnil : l = [] := List.length_eq_zero.mp (Nat.le_zero.mp hl)
    subst hnil
    rw [processBatches_nil] at heq
    rw [Prod.mk.injEq] at heq
    obtain ⟨ha, _⟩ := heq
    cases ha
    intro r hr
    simp at hr
  | succ n ih =>
    intro l hl batchIdx res events heq
    cases l with
    | nil =>
      rw [processBatches_nil] at heq
      rw [Prod.mk.injEq] at heq
      obtain ⟨ha, _⟩ := heq
      cases ha
      intro r hr
      simp at hr
    | cons comment more =>
      rw [processBatches] at heq
      cases hup : upstream batchIdx with
      | httpError status =>
        rw [hup] at heq
        simp only [Prod.mk.injEq] at heq
        exact absurd heq.1 (by simp)
      | ok parse =>
        rw [hup] at heq
        rcases hsplit : processBatches upstream ((comment :: more).drop batchSize)
          (batchIdx + 1) with ⟨a, b⟩
        rw [hsplit] at heq
        cases a with
        | error e =>
          simp only [Prod.mk.injEq] at heq
          exact absurd heq.1 (by simp)
        | ok rs =>
          simp only [Prod.mk.injEq, Except.ok.injEq] at heq
          obtain ⟨hres, _⟩ := heq
          subst hres
          intro r hr
          rcases List.mem_append.mp hr with hleft | hright
          · obtain ⟨entry, hentry⟩ := batchResultsFrom_sentiment_mem _ _ _ r hleft
            rw [hentry]
            exact mapRemoteEntry_mem entry
          · exact ih ((comment :: more).drop batchSize)
              (by
                simp only [List.length_drop, List.length_cons, batchSize]
                simp only [List.length_cons] at hl
                omega)
              (batchIdx + 1) rs b hsplit r hright

example : singleRemoteSentiment "  Positive. " = "positive" := by decide

example : singleRemoteSentiment "mostly negative" = "negative" := by decide

example : singleRemoteSentiment "mixed" = "neutral" := by decide

/-- Claim C3: on any input list and a well-behaved upstream, the batch
loop requests exactly the partition of the input into consecutive batches
of size batchSize = 10 (so ceil(N/10) requests, each batch nonempty, all
but the last full, concatenating back to the input), and its event trace
is those requests with a single fixed 1000 ms delay between consecutive
requests and no delay after the final one (the intersperse shape). -/
theorem claim_C3 (upstream : ℕ → UpstreamResult) (comments : List String)
    (hok : ∀ k, (upstream k).isOk = true) :
    (processBatches upstream comments 0).2 =
      List.intersperse (RemoteEvent.delay interBatchDelayMs)
        ((chunkList comments).map RemoteEvent.request) ∧
    requestsOf (processBatches upstream comments 0).2 = chunkList comments ∧
    (requestsOf (processBatches upstream comments 0).2).length =
      numBatches comments.length ∧
    (chunkList comments).join = comments ∧
    (∀ b ∈ (chunkList comments).dropLast, b.length = batchSize) ∧
    (∀ b ∈ chunkList comments, b ≠ [] ∧ b.length ≤ batchSize) ∧
    interBatchDelayMs = 1000 ∧ batchSize = 10 := by
  obtain ⟨res, hrun, -, -⟩ :=
    processBatches_ok upstream hok comments.length comments le_rfl 0
  have hev : (processBatches upstream comments 0).2 =
      List.intersperse (RemoteEvent.delay interBatchDelayMs)
        ((chunkList comments).map RemoteEvent.request) := by
    rw [hrun]
  refine ⟨hev, ?_, ?_, chunkList_join comments.length comments le_rfl,
    chunkList_dropLast_size comments.length comments le_rfl,
    chunkList_mem_size comments.length comments le_rfl, rfl, rfl⟩
  · rw [hev]
    exact requestsOf_intersperse interBatchDelayMs (chunkList comments)
  · rw [hev, requestsOf_intersperse interBatchDelayMs (chunkList comments)]
    exact chunkList_length comments.length comments le_rfl

theorem claim_C3_witness :
    (processBatches (fun _ => UpstreamResult.ok none) ["a", "b"] 0).2 =
      [RemoteEvent.request ["a", "b"]] ∧
    numBatches 2 = 1 := by
  have h := claim_C3 (fun _ => UpstreamResult.ok none) ["a", "b"] (fun _ => rfl)
  have hc : chunkList ["a", "b"] = [["a", "b"]] := by
    rw [chunkList]
    rw [show List.take batchSize ["a", "b"] = ["a", "b"] from by decide]
    rw [show List.drop batchSize ["a", "b"] = ([] : List String) from by decide]
    simp [chunkList]
  constructor
  · rw [h.1, hc]
    simp
  · decide

/-- Claim C4: with every upstream status ok, the batched analyzer returns
one result per input comment in order; the comment at global position p
belongs to batch p / 10 and receives the sentiment determined by that
batch alone: on total parse failure of the batch every item of it
(including p) gets "neutral" and the run still completes; on a successful
parse, a missing positional entry or one whose value is not among the
three valid labels yields "neutral" for that single position, while a
valid entry passes through lowercased. -/
theorem claim_C4 (upstream : ℕ → UpstreamResult) (comments : List String)
    (hok : ∀ k, (upstream k).isOk = true) :
    ∃ res,
      (processBatches upstream comments 0).1 = Except.ok res ∧
      res.length = comments.length ∧
      (∀ (p : ℕ) (c : String), comments.get? p = some c →
        res.get? p = some ⟨c,
          expectedRemoteSentiment (upstream (p / batchSize)) (p % batchSize)⟩) ∧
      (∀ j : ℕ, expectedRemoteSentiment (UpstreamResult.ok none) j = "neutral") ∧
      (∀ (entries : List (Option String)) (j : ℕ),
        (entries.get? j).join = none →
        expectedRemoteSentiment (UpstreamResult.ok (some entries)) j = "neutral") ∧
      (∀ (entries : List (Option String)) (j : ℕ) (v : String),
        (entries.get? j).join = some v →
        validSentiments.contains (strLower v) = false →
        expectedRemoteSentiment (UpstreamResult.ok (some entries)) j = "neutral") ∧
      (∀ (entries : List (Option String)) (j : ℕ) (v : String),
        (entries.get? j).join = some v →
        validSentiments.contains (strLower v) = true →
        expectedRemoteSentiment (UpstreamResult.ok (some entries)) j =
          strLower v) := by
  obtain ⟨res, hrun, hlen, hget⟩ :=
    processBatches_ok upstream hok comments.length comments le_rfl 0
  refine ⟨res, by rw [hrun], hlen, ?_, ?_, ?_, ?_, ?_⟩
  · intro p c hp
    have hres := hget p c hp
    rwa [Nat.zero_add] at hres
  · intro j
    rfl
  · intro entries j hj
    simp only [expectedRemoteSentiment]
    rw [hj]
    decide
  · intro entries j v hj hcont
    simp only [expectedRemoteSentiment]
    rw [hj]
    simp only [mapRemoteEntry]
    by_cases h0 : strLower v = ""
    · rw [if_pos h0]
      decide
    · rw [if_neg h0, if_neg (by rw [hcont]; decide)]
  · intro entries j v hj hcont
    simp only [expectedRemoteSentiment]
    rw [hj]
    simp only [mapRemoteEntry]
    have h0 : ¬strLower v = "" := by
      intro hemp
      rw [hemp] at hcont
      exact absurd hcont (by decide)
    rw [if_neg h0, if_pos hcont]

theorem claim_C4_witness :
    ∃ res,
      (processBatches
        (fun k => if k = 0 then
            UpstreamResult.ok (some [some "POSITIVE", some "bad"])
          else UpstreamResult.ok none)
        ["c1", "c2"] 0).1 = Except.ok res ∧
      res.get? 0 = some ⟨"c1", "positive"⟩ ∧
      res.get? 1 = some ⟨"c2", "neutral"⟩ := by
  obtain ⟨res, h1, -, h3, -⟩ := claim_C4
    (fun k => if k = 0 then
        UpstreamResult.ok (some [some "POSITIVE", some "bad"])
      else UpstreamResult.ok none)
    ["c1", "c2"]
    (by
      intro k
      by_cases h : k = 0 <;> simp [h, UpstreamResult.isOk])
  refine ⟨res, h1, ?_, ?_⟩
  · rw [h3 0 "c1" rfl]
    decide
  · rw [h3 1 "c2" rfl]
    decide

/-- Claim C5: a non-ok upstream status on any batch (every earlier batch
having succeeded) makes the whole multi-batch run throw: HTTP 429 becomes
the dedicated rate-limit error with its retry-later advisory, HTTP 402
the dedicated add-credits error, and any other non-success status the
generic upstream failure; the two dedicated errors are distinct, the
returned value is the error alone (never an ok result list, so no partial
results), and no batch after the failing one is requested. -/
theorem claim_C5 (upstream : ℕ → UpstreamResult) (comments : List String)
    (j status : ℕ)
    (hpre : ∀ k, k < j → (upstream k).isOk = true)
    (hfail : upstream j = UpstreamResult.httpError status)
    (hj : j < numBatches comments.length) :
    (processBatches upstream comments 0).1 =
      Except.error (statusToError status) ∧
    (requestsOf (processBatches upstream comments 0).2).length = j + 1 ∧
    (∀ res, (processBatches upstream comments 0).1 ≠ Except.ok res) ∧
    statusToError 429 = AnalyzeError.rateLimited ∧
    statusToError 402 = AnalyzeError.paymentRequired ∧
    (status ≠ 429 → status ≠ 402 →
      statusToError status = AnalyzeError.apiError status) ∧
    AnalyzeError.rateLimited ≠ AnalyzeError.paymentRequired ∧
    AnalyzeError.rateLimited.message =
      "Rate limit exceeded. Please try again in a moment or upload fewer comments." ∧
    AnalyzeError.paymentRequired.message =
      "AI usage limit reached. Please add credits to continue." := by
  have hzero : ∀ k, k < j → (upstream (0 + k)).isOk = true := by
    intro k hk
    rw [Nat.zero_add]
    exact hpre k hk
  have hfail0 : upstream (0 + j) = UpstreamResult.httpError status := by
    rwa [Nat.zero_add]
  obtain ⟨herr, hreq⟩ := processBatches_error upstream comments.length comments
    le_rfl 0 j status hzero hfail0 hj
  refine ⟨herr, hreq, ?_, rfl, rfl, ?_, by decide, rfl, rfl⟩
  · intro res hok'
    rw [herr] at hok'
    exact Except.noConfusion hok'
  · intro h429 h402
    simp [statusToError, h429, h402]

theorem claim_C5_witness :
    (processBatches (fun _ => UpstreamResult.httpError 429) ["a"] 0).1 =
      Except.error AnalyzeError.rateLimited ∧
    (processBatches (fun _ => UpstreamResult.httpError 402) ["a"] 0).1 =
      Except.error AnalyzeError.paymentRequired := by
  constructor
  · have h := claim_C5 (fun _ => UpstreamResult.httpError 429) ["a"] 0 429
      (fun k hk => absurd hk (Nat.not_lt_zero k)) rfl (by decide)
    rw [h.1]
    rfl
  · have h := claim_C5 (fun _ => UpstreamResult.httpError 402) ["a"] 0 402
      (fun k hk => absurd hk (Nat.not_lt_zero k)) rfl (by decide)
    rw [h.1]
    rfl

/-- Claim C6: every classification path produces only the three fixed
sentiment values.  The two local mapping policies return a value of the
closed Sentiment enum; every result list the batched remote analyzer
returns contains only sentiments among ["positive", "negative",
"neutral"], as does every per-entry mapping; and the single-item remote
analyzer returns one of the three for every upstream reply text. -/
theorem claim_C6 :
    (∀ r : RawClassification, mapTernarySentiment r = Sentiment.positive ∨
      mapTernarySentiment r = Sentiment.negative ∨
      mapTernarySentiment r = Sentiment.neutral) ∧
    (∀ r : RawClassification, mapBinarySentiment r = Sentiment.positive ∨
      mapBinarySentiment r = Sentiment.negative ∨
      mapBinarySentiment r = Sentiment.neutral) ∧
    (∀ entry : Option String, mapRemoteEntry entry ∈ validSentiments) ∧
    (∀ (upstream : ℕ → UpstreamResult) (comments : List String)
      (res : List RemoteResult) (events : List RemoteEvent),
      processBatches upstream comments 0 = (Except.ok res, events) →
      ∀ r ∈ res, r.sentiment ∈ validSentiments) ∧
    (∀ content : String, singleRemoteSentiment content ∈ validSentiments) := by
  refine ⟨?_, ?_, mapRemoteEntry_mem, ?_, ?_⟩
  · intro r
    cases h : mapTernarySentiment r
    · exact Or.inl rfl
    · exact Or.inr (Or.inl rfl)
    · exact Or.inr (Or.inr rfl)
  · intro r
    cases h : mapBinarySentiment r
    · exact Or.inl rfl
    · exact Or.inr (Or.inl rfl)
    · exact Or.inr (Or.inr rfl)
  · intro upstream comments res events heq
    exact processBatches_results_valid upstream comments.length comments
      le_rfl 0 res events heq
  · intro content
    simp only [singleRemoteSentiment]
    by_cases h1 : strIncludes (strTrim (strLower content)) "positive" = true
    · rw [if_pos h1]
      decide
    · rw [if_neg h1]
      by_cases h2 : strIncludes (strTrim (strLower content)) "negative" = true
      · rw [if_pos h2]
        decide
      · rw [if_neg h2]
        decide

theorem claim_C6_witness :
    mapRemoteEntry (some "GREAT") ∈ validSentiments ∧
    (∀ r ∈ [RemoteResult.mk "a" "neutral"], r.sentiment ∈ validSentiments) ∧
    singleRemoteSentiment "it was positive overall" ∈ validSentiments := by
  have hrun : processBatches (fun _ => UpstreamResult.ok none) ["a"] 0 =
      (Except.ok [RemoteResult.mk "a" "neutral"],
        [RemoteEvent.request ["a"]]) := by
    have hneut : mapRemoteEntry (some "neutral") = "neutral" := by decide
    rw [processBatches]
    rw [show List.take batchSize ["a"] = ["a"] from by decide]
    rw [show List.drop batchSize ["a"] = ([] : List String) from by decide]
    rw [processBatches_nil]
    simp [batchSentiments, batchResultsFrom, hneut, Option.join]
  refine ⟨claim_C6.2.2.1 (some "GREAT"), ?_, claim_C6.2.2.2.2 "it was positive overall"⟩
  exact claim_C6.2.2.2.1 (fun _ => UpstreamResult.ok none) ["a"]
    [RemoteResult.mk "a" "neutral"] [RemoteEvent.request ["a"]] hrun

/-- State of the face-analysis loop in the timer-based detector revision:
the value currently held in the isAnalyzing useState store together with
the number of remote emotion-analysis calls in flight. -/
structure FaceState where
  storeIsAnalyzing : Bool
  inFlight : ℕ
deriving DecidableEq, Repr

/-- Events of the loop: a timer tick (the setInterval callback invoking
analyzeFrame every 5000 ms) and the completion of an in-flight remote
call, covering both the normal path and the error paths, all of which
write false to the store. -/
inductive FaceEvent where
  | tick
  | complete
deriving DecidableEq, Repr

/-- One step of the loop as the program executes it.  The setInterval
callback registered in startAnalysis holds, for the whole session, the
analyzeFrame closure created in the render in which the camera started,
and the guard if (isAnalyzing) return inside that closure reads the
isAnalyzing value captured by that render — the parameter captured — not
the current store: setIsAnalyzing writes the store and triggers a
re-render, but never changes the binding the interval callback holds.
A tick with captured false therefore proceeds, writes true to the store
(setIsAnalyzing(true)) and starts one remote call; a completion writes
false to the store (the finally block) as its call leaves flight. -/
def faceStep (captured : Bool) : FaceState → FaceEvent → FaceState
  | s, FaceEvent.tick =>
    if captured then s else ⟨true, s.inFlight + 1⟩
  | s, FaceEvent.complete => ⟨false, s.inFlight - 1⟩

/-- A session of the detector: the camera starts in a render where
isAnalyzing is false, so the interval callback captures false; the
session state then unfolds from idle under that fixed capture. -/
def runFace (events : List FaceEvent) : FaceState :=
  events.foldl (faceStep false) ⟨false, 0⟩

/-- Claim C8 states the intent the code itself documents (the guard is
commented Prevent concurrent analysis), but the code does not achieve
it: because the interval callback's captured isAnalyzing stays false for
the whole session, every tick passes the guard.  A tick that fires while
the previous remote call is still pending (the trace tick-then-tick with
no completion between, which occurs whenever a call outlasts the 5000 ms
interval) is not skipped: it starts a second call, leaving two analyses
in flight and refuting the claimed at-most-one invariant — even though
each tick does write true to the store flag, which is never consulted. -/
theorem claim_C8 :
    (∀ s : FaceState, faceStep false s FaceEvent.tick =
      ⟨true, s.inFlight + 1⟩) ∧
    (runFace [FaceEvent.tick]).storeIsAnalyzing = true ∧
    (runFace [FaceEvent.tick]).inFlight = 1 ∧
    (runFace [FaceEvent.tick, FaceEvent.tick]).inFlight = 2 ∧
    ¬(runFace [FaceEvent.tick, FaceEvent.tick]).inFlight ≤ 1 := by
  refine ⟨?_, rfl, rfl, rfl, by decide⟩
  intro s
  rfl

end InsightWhisperer
